import Mathlib

/-!
Verification of the reamp-player playback engine (src/player.js).

The engine is shallowly embedded: JavaScript objects become Lean structures,
JavaScript arrays become Lean lists, and paths on which the JavaScript code
throws a TypeError (indexing a missing array slot and then dereferencing the
resulting undefined value) are modelled by Option, with none standing for the
thrown exception. Float gain values are only ever 0.0 and 1.0 in the source,
so gains are modelled as rationals. Host services (Audio.canPlayType, the Web
Audio graph) are modelled by explicit parameters and by record fields that
record the wiring the engine performs on the graph nodes it creates.
-/

namespace ReampPlayer

/-- A track configuration record, as handed to the PlayerEngine constructor.
The JavaScript sources object (MIME type to URI) is modelled as an
insertion-ordered association list, matching JavaScript string-key order. -/
structure Track where
  title : String
  icon : String
  sources : List (String × String)
deriving Repr, DecidableEq

/-- The preferred-format list of selectTrackUri, in the order the source
declares it. -/
def preferredCodecs : List String := ["audio/mp4", "audio/ogg", "audio/mp3"]

/-- The JavaScript test codec in track.sources: does the sources object have
this MIME type as a key. -/
def declaresCodec (track : Track) (codec : String) : Bool :=
  (track.sources.lookup codec).isSome

/-- PlayerEngine.prototype.selectTrackUri. canPlay models the truthiness of
audio.canPlayType on the host (the empty string is falsy, "maybe" and
"probably" are truthy). First loop: scan the preferred codecs in order and
return the declared source of the first one the host can play. Second loop:
scan the declared sources in declaration order and return the first playable
one. Last resort: the declared audio/wav source, none when it is undefined. -/
def selectTrackUri (canPlay : String → Bool) (track : Track) : Option String :=
  match preferredCodecs.find? (fun codec => declaresCodec track codec && canPlay codec) with
  | some codec => track.sources.lookup codec
  | none =>
    match track.sources.find? (fun src => canPlay src.fst) with
    | some src => track.sources.lookup src.fst
    | none => track.sources.lookup "audio/wav"

/-- A key that List.lookup resolves is a binding of the association list. -/
theorem lookup_mem : ∀ {l : List (String × String)} {k u : String},
    l.lookup k = some u → (k, u) ∈ l := by
  intro l
  induction l with
  | nil => intro k u h; simp [List.lookup] at h
  | cons p t ih =>
    intro k u h
    obtain ⟨a, b⟩ := p
    by_cases hk : k = a
    · subst hk
      simp [List.lookup] at h
      simp [h]
    · have hbeq : (k == a) = false := by simpa using hk
      rw [List.lookup, hbeq] at h
      exact List.mem_cons_of_mem _ (ih h)

/-- When find? selects the first binding whose key satisfies a key-only
predicate, indexing the association list at that key returns that binding's
value. -/
theorem find_key_lookup {p : String → Bool} : ∀ {l : List (String × String)}
    {s : String × String}, l.find? (fun q => p q.fst) = some s →
    l.lookup s.fst = some s.snd := by
  intro l
  induction l with
  | nil => intro s h; simp at h
  | cons q t ih =>
    intro s h
    obtain ⟨k1, v1⟩ := q
    by_cases hq : p k1 = true
    · rw [@List.find?_cons_of_pos (String × String) (fun q => p q.fst) (k1, v1) t (by simpa using hq)] at h
      cases h
      simp [List.lookup]
    · rw [@List.find?_cons_of_neg (String × String) (fun q => p q.fst) (k1, v1) t (by simpa using hq)] at h
      have hs : p s.fst = true := by simpa using List.find?_some h
      have hne : (s.fst == k1) = false := by
        simp only [beq_eq_false_iff_ne, ne_eq]
        intro he
        exact hq (he ▸ hs)
      rw [List.lookup, hne]
      exact ih h

/-- C2: selectTrackUri prefers a declared-and-playable audio/mp4 source, then
audio/ogg, then audio/mp3; and whenever some declared source is host-playable,
the returned URI is the URI of a declared, host-playable source (so a URI of a
host-unplayable type is never returned while a playable alternative exists). -/
theorem selectTrackUri_spec (canPlay : String → Bool) (track : Track) :
    (declaresCodec track "audio/mp4" = true → canPlay "audio/mp4" = true →
      selectTrackUri canPlay track = track.sources.lookup "audio/mp4") ∧
    (¬(declaresCodec track "audio/mp4" = true ∧ canPlay "audio/mp4" = true) →
      declaresCodec track "audio/ogg" = true → canPlay "audio/ogg" = true →
      selectTrackUri canPlay track = track.sources.lookup "audio/ogg") ∧
    (¬(declaresCodec track "audio/mp4" = true ∧ canPlay "audio/mp4" = true) →
      ¬(declaresCodec track "audio/ogg" = true ∧ canPlay "audio/ogg" = true) →
      declaresCodec track "audio/mp3" = true → canPlay "audio/mp3" = true →
      selectTrackUri canPlay track = track.sources.lookup "audio/mp3") ∧
    (∀ src, src ∈ track.sources → canPlay src.fst = true →
      ∃ chosen, chosen ∈ track.sources ∧ canPlay chosen.fst = true ∧
        selectTrackUri canPlay track = some chosen.snd) := by
  refine ⟨?_, ?_, ?_, ?_⟩
  · intro hd hc
    have hfind : preferredCodecs.find?
        (fun codec => declaresCodec track codec && canPlay codec) = some "audio/mp4" := by
      rw [preferredCodecs]
      exact @List.find?_cons_of_pos String _ "audio/mp4" _ (by simp [hd, hc])
    unfold selectTrackUri
    rw [hfind]
  · intro hnot4 hd hc
    have h4 : (declaresCodec track "audio/mp4" && canPlay "audio/mp4") = false := by
      cases hda : declaresCodec track "audio/mp4" <;>
        cases hca : canPlay "audio/mp4" <;> simp_all
    have hfind : preferredCodecs.find?
        (fun codec => declaresCodec track codec && canPlay codec) = some "audio/ogg" := by
      rw [preferredCodecs]
      rw [@List.find?_cons_of_neg String _ "audio/mp4" _ (by simp [h4])]
      exact @List.find?_cons_of_pos String _ "audio/ogg" _ (by simp [hd, hc])
    unfold selectTrackUri
    rw [hfind]
  · intro hnot4 hnoto hd hc
    have h4 : (declaresCodec track "audio/mp4" && canPlay "audio/mp4") = false := by
      cases hda : declaresCodec track "audio/mp4" <;>
        cases hca : canPlay "audio/mp4" <;> simp_all
    have ho : (declaresCodec track "audio/ogg" && canPlay "audio/ogg") = false := by
      cases hda : declaresCodec track "audio/ogg" <;>
        cases hca : canPlay "audio/ogg" <;> simp_all
    have hfind : preferredCodecs.find?
        (fun codec => declaresCodec track codec && canPlay codec) = some "audio/mp3" := by
      rw [preferredCodecs]
      rw [@List.find?_cons_of_neg String _ "audio/mp4" _ (by simp [h4])]
      rw [@List.find?_cons_of_neg String _ "audio/ogg" _ (by simp [ho])]
      exact @List.find?_cons_of_pos String _ "audio/mp3" _ (by simp [hd, hc])
    unfold selectTrackUri
    rw [hfind]
  · intro src hmem hplay
    unfold selectTrackUri
    cases hfind : preferredCodecs.find?
        (fun codec => declaresCodec track codec && canPlay codec) with
    | some codec =>
      have hp := List.find?_some hfind
      have hd : declaresCodec track codec = true := by
        cases hda : declaresCodec track codec <;> simp_all
      have hc : canPlay codec = true := by
        cases hca : canPlay codec <;> simp_all
      obtain ⟨u, hu⟩ := Option.isSome_iff_exists.mp hd
      exact ⟨(codec, u), lookup_mem hu, hc, hu⟩
    | none =>
      cases hfind2 : track.sources.find? (fun s => canPlay s.fst) with
      | none =>
        have hnone := List.find?_eq_none.mp hfind2 src hmem
        simp [hplay] at hnone
      | some found =>
        have hp2 : canPlay found.fst = true := by simpa using List.find?_some hfind2
        have hmem2 : found ∈ track.sources := List.mem_of_find?_eq_some hfind2
        exact ⟨found, hmem2, hp2, find_key_lookup hfind2⟩

/-- A concrete track used to instantiate the theorems: declares ogg first,
then mp4. -/
def trackB : Track :=
  { title := "Clean", icon := "clean.png",
    sources := [("audio/ogg", "b.ogg"), ("audio/mp4", "a.mp4")] }

/-- A concrete host capability: can play mp4 and ogg, nothing else. -/
def cpW : String → Bool := fun codec => codec == "audio/mp4" || codec == "audio/ogg"

/-- C2 witness: with both mp4 and ogg declared and playable, the mp4 URI wins
even though ogg is declared first. -/
theorem selectTrackUri_spec_w : selectTrackUri cpW trackB = some "a.mp4" := by
  have h := (selectTrackUri_spec cpW trackB).1 (by decide) (by decide)
  rw [h]
  decide

/-- One slot of this.playbackCtx: the {gainNode, sourceNode} pair play builds
for one track, recording the wiring performed on the two graph nodes. The
float gain value (only ever 0.0 or 1.0 in the source) is a rational; the
decoded buffer handle bound to the source is an opaque Nat id, none when
this.buffers[i] was undefined (JavaScript then assigns a null buffer). -/
structure SessionEntry where
  gainValue : ℚ
  gainToDestination : Bool
  sourceBuffer : Option Nat
  sourceToGain : Bool
  startTime : Option ℚ
  onendedSet : Bool
deriving Repr, DecidableEq

/-- The events a PlayerEngine emits through its XObject base. -/
inductive Event where
  | trackLoaded
  | trackChanged (num : Nat)
deriving Repr, DecidableEq

/-- The PlayerEngine state. buffers is this.buffers (a sparse array of decoded
buffer handles, none for an empty slot); playbackCtx is none while the field
is still undefined (before the first play) and some list afterwards. The
XObject event table is not carried here: the constructor declares trackLoaded
and trackChanged, so the engine's own emitEvent calls always succeed, and the
operations below return the list of events they emit instead. -/
structure Engine where
  tracks : List Track
  buffers : List (Option Nat)
  currentTrack : Nat
  playing : Bool
  playbackCtx : Option (List SessionEntry)
deriving Repr, DecidableEq

/-- The PlayerEngine constructor: empty buffer table, current track 0, not
playing, playbackCtx still undefined. -/
def mkEngine (tracks : List Track) : Engine :=
  { tracks := tracks, buffers := [], currentTrack := 0,
    playing := false, playbackCtx := none }

/-- One iteration of the play loop for track index i: a fresh gain node with
value 1.0 at the current track and 0.0 elsewhere, connected to the mix
destination; a fresh source node bound to this.buffers[i], connected to the
gain and started at time 0; no ended handler yet. -/
def mkEntry (e : Engine) (i : Nat) : SessionEntry :=
  { gainValue := if i = e.currentTrack then 1 else 0,
    gainToDestination := true,
    sourceBuffer := e.buffers.getD i none,
    sourceToGain := true,
    startTime := some 0,
    onendedSet := false }

/-- The playbackCtx array the play loop builds, one entry per track. -/
def playCtx (e : Engine) : List SessionEntry :=
  (List.range e.tracks.length).map (mkEntry e)

/-- PlayerEngine.prototype.play. Returns unchanged when already playing.
Otherwise sets playing, builds one {gainNode, sourceNode} entry per track and
installs the onended handler on the source of entry 0; with zero tracks that
last access (this.playbackCtx[0].sourceNode) throws, modelled as none. -/
def play (e : Engine) : Option Engine :=
  if e.playing then some e
  else
    match (playCtx e)[0]? with
    | none => none
    | some entry0 =>
      some { e with playing := true,
                    playbackCtx := some ((playCtx e).set 0 { entry0 with onendedSet := true }) }

/-- PlayerEngine.prototype.stop. Returns unchanged when not playing.
Otherwise stops every source of the session (a mutation of nodes that are
discarded in the same call) and resets playbackCtx to an empty array. The
playing flag is not touched. When playing is true but playbackCtx is still
undefined, the loop bound this.playbackCtx.length throws, modelled as none. -/
def stop (e : Engine) : Option Engine :=
  if e.playing = false then some e
  else
    match e.playbackCtx with
    | none => none
    | some _ => some { e with playbackCtx := some [] }

/-- PlayerEngine.prototype.onEnded, the handler the host audio graph invokes
when the monitored source finishes: clears the playing flag and nothing else. -/
def onEnded (e : Engine) : Engine :=
  { e with playing := false }

/-- this.playbackCtx[i].gainNode.gain.value = v, as a pure update of the
session list; out-of-range indices are left to the caller, which checks
bounds and models the JavaScript TypeError as none. -/
def setGain (ctx : List SessionEntry) (i : Nat) (v : ℚ) : List SessionEntry :=
  match ctx[i]? with
  | some entry => ctx.set i { entry with gainValue := v }
  | none => ctx

/-- PlayerEngine.prototype.setCurrentTrack. Records the old index, writes the
new one, and when playing with a session present and the index changed, mutes
the old track's gain and raises the new one's; indexing the session outside
its bounds dereferences undefined and throws (none), and the trackChanged
emission at the end of the function is then never reached. On every
non-throwing path exactly one trackChanged event carrying the new index is
emitted. -/
def setCurrentTrack (e : Engine) (num : Nat) : Option (Engine × List Event) :=
  let old := e.currentTrack
  if e.playing && e.playbackCtx.isSome && (num != old) then
    match e.playbackCtx with
    | none => none
    | some ctx =>
      if old < ctx.length ∧ num < ctx.length then
        some ({ e with currentTrack := num,
                       playbackCtx := some (setGain (setGain ctx old 0) num 1) },
              [Event.trackChanged num])
      else none
  else
    some ({ e with currentTrack := num }, [Event.trackChanged num])

/-- this.buffers[index] = buffer on a JavaScript array: in-range writes
replace the slot, out-of-range writes extend the array, leaving the skipped
slots empty. -/
def writeBuffer (bs : List (Option Nat)) (i : Nat) (b : Nat) : List (Option Nat) :=
  if i < bs.length then bs.set i (some b)
  else bs ++ List.replicate (i - bs.length) none ++ [some b]

/-- PlayerEngine.prototype.trackDecodedCallback, the tail of the load path:
stores the decoded buffer at the track's index and emits trackLoaded. -/
def trackDecodedCallback (e : Engine) (index : Nat) (buffer : Nat) : Engine × List Event :=
  ({ e with buffers := writeBuffer e.buffers index buffer }, [Event.trackLoaded])

/-- Engine states reachable from the constructor through the public API and
the host callbacks, with no restriction on the index handed to
setCurrentTrack. -/
inductive ReachableAny (tracks : List Track) : Engine → Prop
  | init : ReachableAny tracks (mkEngine tracks)
  | doPlay {e e' : Engine} : ReachableAny tracks e → play e = some e' →
      ReachableAny tracks e'
  | doStop {e e' : Engine} : ReachableAny tracks e → stop e = some e' →
      ReachableAny tracks e'
  | doEnded {e : Engine} : ReachableAny tracks e → ReachableAny tracks (onEnded e)
  | doSelect {e e' : Engine} {evs : List Event} (n : Nat) :
      ReachableAny tracks e → setCurrentTrack e n = some (e', evs) →
      ReachableAny tracks e'
  | doLoad {e : Engine} (i b : Nat) : ReachableAny tracks e →
      ReachableAny tracks ((trackDecodedCallback e i b).fst)

/-- Engine states reachable from the constructor when every caller of
setCurrentTrack passes an index below the track count (the discipline the
control surface obeys: its selector buttons are built one per track). -/
inductive Reachable (tracks : List Track) : Engine → Prop
  | init : Reachable tracks (mkEngine tracks)
  | doPlay {e e' : Engine} : Reachable tracks e → play e = some e' →
      Reachable tracks e'
  | doStop {e e' : Engine} : Reachable tracks e → stop e = some e' →
      Reachable tracks e'
  | doEnded {e : Engine} : Reachable tracks e → Reachable tracks (onEnded e)
  | doSelect {e e' : Engine} {evs : List Event} (n : Nat) :
      Reachable tracks e → n < tracks.length →
      setCurrentTrack e n = some (e', evs) → Reachable tracks e'
  | doLoad {e : Engine} (i b : Nat) : Reachable tracks e →
      Reachable tracks ((trackDecodedCallback e i b).fst)

/-- The session gain invariant: while playing, a session is present, one entry
per track, the current track index is in range, and the gain of every entry is
1.0 exactly at the current track and 0.0 everywhere else. -/
def GainInv (e : Engine) : Prop :=
  e.playing = true →
    ∃ ctx, e.playbackCtx = some ctx ∧ ctx.length = e.tracks.length ∧
      e.currentTrack < e.tracks.length ∧
      ∀ i, (hi : i < ctx.length) →
        (ctx.get ⟨i, hi⟩).gainValue = if i = e.currentTrack then 1 else 0

/-- Characterization of a successful fresh play: the session it builds has one
entry per track, fully wired, with the ended handler exactly on entry 0. -/
theorem play_eq (e : Engine) (hnp : e.playing = false) (hne : 0 < e.tracks.length) :
    ∃ ctx, play e = some { e with playing := true, playbackCtx := some ctx } ∧
      ctx.length = e.tracks.length ∧
      ∀ i, (hi : i < ctx.length) →
        ctx.get ⟨i, hi⟩ = { gainValue := if i = e.currentTrack then 1 else 0,
                            gainToDestination := true,
                            sourceBuffer := e.buffers.getD i none,
                            sourceToGain := true,
                            startTime := some 0,
                            onendedSet := i == 0 } := by
  have hlen : (playCtx e).length = e.tracks.length := by simp [playCtx]
  have hc0 : (playCtx e)[0]? = some (mkEntry e 0) := by
    rw [playCtx, List.getElem?_map, List.getElem?_range hne]
    rfl
  refine ⟨(playCtx e).set 0 { mkEntry e 0 with onendedSet := true }, ?_, ?_, ?_⟩
  · unfold play
    rw [hnp]
    simp only [Bool.false_eq_true, if_false, hc0]
  · simp [hlen]
  · intro i hi
    have hi' : i < (playCtx e).length := by simpa using hi
    rw [List.get_eq_getElem, List.getElem_set]
    by_cases h0 : 0 = i
    · subst h0
      simp [mkEntry]
    · rw [if_neg h0]
      have hne0 : i ≠ 0 := fun h => h0 h.symm
      simp [playCtx, mkEntry, hne0]

/-- play only toggles the playing flag and the session; tracks, buffers and
the current track survive. -/
theorem play_frame {e e' : Engine} (h : play e = some e') :
    e'.tracks = e.tracks ∧ e'.currentTrack = e.currentTrack ∧
      e'.buffers = e.buffers := by
  unfold play at h
  by_cases hp : e.playing
  · rw [if_pos hp] at h
    cases h
    exact ⟨rfl, rfl, rfl⟩
  · rw [if_neg hp] at h
    cases hm : (playCtx e)[0]? with
    | none => rw [hm] at h; cases h
    | some entry0 =>
      rw [hm] at h
      cases h
      exact ⟨rfl, rfl, rfl⟩

/-- stop only resets the session; every other field survives. -/
theorem stop_frame {e e' : Engine} (h : stop e = some e') :
    e'.tracks = e.tracks ∧ e'.currentTrack = e.currentTrack ∧
      e'.buffers = e.buffers ∧ e'.playing = e.playing := by
  unfold stop at h
  by_cases hp : e.playing = false
  · rw [if_pos hp] at h
    cases h
    exact ⟨rfl, rfl, rfl, rfl⟩
  · rw [if_neg hp] at h
    cases hm : e.playbackCtx with
    | none => rw [hm] at h; cases h
    | some ctx =>
      rw [hm] at h
      cases h
      exact ⟨rfl, rfl, rfl, rfl⟩

/-- A successful setCurrentTrack writes the requested index as the current
track, leaves tracks, buffers and the playing flag alone, and emits exactly
the one trackChanged event. -/
theorem setCurrentTrack_frame {e e' : Engine} {evs : List Event} {n : Nat}
    (h : setCurrentTrack e n = some (e', evs)) :
    e'.tracks = e.tracks ∧ e'.buffers = e.buffers ∧ e'.playing = e.playing ∧
      e'.currentTrack = n ∧ evs = [Event.trackChanged n] := by
  unfold setCurrentTrack at h
  by_cases hg : (e.playing && e.playbackCtx.isSome && (n != e.currentTrack)) = true
  · rw [if_pos hg] at h
    cases hm : e.playbackCtx with
    | none => rw [hm] at h; exact absurd h (by simp)
    | some ctx =>
      rw [hm] at h
      simp only [] at h
      by_cases hb : e.currentTrack < ctx.length ∧ n < ctx.length
      · rw [if_pos hb] at h
        cases h
        exact ⟨rfl, rfl, rfl, rfl, rfl⟩
      · rw [if_neg hb] at h
        cases h
  · rw [if_neg hg] at h
    cases h
    exact ⟨rfl, rfl, rfl, rfl, rfl⟩

/-- The load path only writes the buffer table. -/
theorem trackDecodedCallback_frame (e : Engine) (i b : Nat) :
    ((trackDecodedCallback e i b).fst).tracks = e.tracks ∧
      ((trackDecodedCallback e i b).fst).currentTrack = e.currentTrack ∧
      ((trackDecodedCallback e i b).fst).playing = e.playing ∧
      ((trackDecodedCallback e i b).fst).playbackCtx = e.playbackCtx := by
  exact ⟨rfl, rfl, rfl, rfl⟩

theorem length_setGain (ctx : List SessionEntry) (i : Nat) (v : ℚ) :
    (setGain ctx i v).length = ctx.length := by
  unfold setGain
  cases h : ctx[i]? <;> simp

theorem setGain_eq_set {ctx : List SessionEntry} {i : Nat} (hi : i < ctx.length) (v : ℚ) :
    setGain ctx i v = ctx.set i { ctx.get ⟨i, hi⟩ with gainValue := v } := by
  unfold setGain
  rw [List.getElem?_eq_getElem hi]
  rfl

theorem getElemQ_setGain (ctx : List SessionEntry) (i : Nat) (hi : i < ctx.length)
    (v : ℚ) (j : Nat) :
    (setGain ctx i v)[j]? =
      if j = i then some { ctx.get ⟨i, hi⟩ with gainValue := v } else ctx[j]? := by
  rw [setGain_eq_set hi v]
  by_cases hji : j = i
  · subst hji
    rw [if_pos rfl]
    exact List.getElem?_set_self hi
  · rw [if_neg hji]
    exact List.getElem?_set_ne (fun h => hji h.symm)

/-- The playing, index-changed path of setCurrentTrack, with both session
indices in bounds: mute the old track, raise the new one, emit the event. -/
theorem setCurrentTrack_eq_playing {e : Engine} {ctx : List SessionEntry} {n : Nat}
    (hp : e.playing = true) (hc : e.playbackCtx = some ctx)
    (hn : n ≠ e.currentTrack) (ho : e.currentTrack < ctx.length) (hnn : n < ctx.length) :
    setCurrentTrack e n =
      some ({ e with currentTrack := n,
                     playbackCtx := some (setGain (setGain ctx e.currentTrack 0) n 1) },
            [Event.trackChanged n]) := by
  unfold setCurrentTrack
  have hg : (e.playing && e.playbackCtx.isSome && (n != e.currentTrack)) = true := by
    simp [hp, hc, hn]
  rw [if_pos hg, hc]
  simp only []
  rw [if_pos ⟨ho, hnn⟩]

/-- The gain-untouched path of setCurrentTrack: not playing, no session, or
the index unchanged. -/
theorem setCurrentTrack_eq_simple {e : Engine} {n : Nat}
    (hg : (e.playing && e.playbackCtx.isSome && (n != e.currentTrack)) = false) :
    setCurrentTrack e n = some ({ e with currentTrack := n }, [Event.trackChanged n]) := by
  unfold setCurrentTrack
  rw [if_neg (by simp [hg])]

/-- C3: while a playback session exists, every session gain is 1.0 exactly at
the current track and 0.0 at every other track. play establishes this when
started idle with the current track in range, and setCurrentTrack preserves
it (and succeeds) whenever the selected index is below the track count. -/
theorem gain_invariant :
    (∀ e e', e.playing = false → e.currentTrack < e.tracks.length →
      play e = some e' → GainInv e') ∧
    (∀ e n, GainInv e → n < e.tracks.length →
      ∃ e', setCurrentTrack e n = some (e', [Event.trackChanged n]) ∧ GainInv e') := by
  constructor
  · intro e e' hnp hcur hp
    obtain ⟨ctx, hplay, hlen, hget⟩ :=
      play_eq e hnp (Nat.lt_of_le_of_lt (Nat.zero_le _) hcur)
    rw [hplay] at hp
    cases hp
    intro _
    refine ⟨ctx, rfl, by simpa using hlen, by simpa using hcur, ?_⟩
    intro i hi
    rw [hget i hi]
  · intro e n hInv hn
    by_cases hp : e.playing = true
    · obtain ⟨ctx, hc, hlen, hcur, hg⟩ := hInv hp
      by_cases hne : n = e.currentTrack
      · have hgf : (e.playing && e.playbackCtx.isSome && (n != e.currentTrack)) = false := by
          simp [hne]
        refine ⟨_, setCurrentTrack_eq_simple hgf, ?_⟩
        intro hp'
        subst hne
        exact ⟨ctx, hc, hlen, hcur, hg⟩
      · have ho : e.currentTrack < ctx.length := by rw [hlen]; exact hcur
        have hnn : n < ctx.length := by rw [hlen]; exact hn
        refine ⟨_, setCurrentTrack_eq_playing hp hc hne ho hnn, ?_⟩
        intro hp'
        have hl1 : (setGain ctx e.currentTrack 0).length = ctx.length := length_setGain ctx _ 0
        have hnn1 : n < (setGain ctx e.currentTrack 0).length := by rw [hl1]; exact hnn
        refine ⟨setGain (setGain ctx e.currentTrack 0) n 1, rfl, ?_, hn, ?_⟩
        · rw [length_setGain, hl1]; exact hlen
        · intro j hj
          have hj2 : j < (setGain ctx e.currentTrack 0).length := by
            rw [← length_setGain (setGain ctx e.currentTrack 0) n 1]; exact hj
          have hj1 : j < ctx.length := by rw [← hl1]; exact hj2
          show ((setGain (setGain ctx e.currentTrack 0) n 1).get ⟨j, hj⟩).gainValue =
            if j = n then 1 else 0
          have hq : (setGain (setGain ctx e.currentTrack 0) n 1)[j]? =
              some ((setGain (setGain ctx e.currentTrack 0) n 1).get ⟨j, hj⟩) :=
            List.getElem?_eq_getElem hj
          rw [getElemQ_setGain _ n hnn1 1 j] at hq
          by_cases hjn : j = n
          · rw [if_pos hjn] at hq
            rw [if_pos hjn]
            have := Option.some.inj hq
            rw [← this]
          · rw [if_neg hjn] at hq
            rw [if_neg hjn]
            rw [getElemQ_setGain ctx e.currentTrack ho 0 j] at hq
            by_cases hjo : j = e.currentTrack
            · rw [if_pos hjo] at hq
              have := Option.some.inj hq
              rw [← this]
            · rw [if_neg hjo] at hq
              rw [List.getElem?_eq_getElem hj1] at hq
              have := Option.some.inj hq
              rw [← this]
              have hgj := hg j hj1
              rw [List.get_eq_getElem] at hgj
              rw [hgj, if_neg hjo]
    · have hpf : e.playing = false := by simpa using hp
      have hgf : (e.playing && e.playbackCtx.isSome && (n != e.currentTrack)) = false := by
        simp [hpf]
      refine ⟨_, setCurrentTrack_eq_simple hgf, ?_⟩
      intro hp'
      simp [hpf] at hp'

/-- A concrete two-track engine with both buffers decoded, still idle. -/
def engIdle : Engine :=
  (trackDecodedCallback (trackDecodedCallback (mkEngine [trackB, trackB]) 0 5).fst 1 6).fst

/-- The concrete engine after a successful play from engIdle. -/
def engPlaying : Engine := (play engIdle).getD engIdle

/-- C3 witness: the session built by play on the concrete two-track engine
satisfies the gain invariant. -/
theorem gain_invariant_w : GainInv engPlaying :=
  gain_invariant.1 engIdle engPlaying rfl (by decide) (by rfl)

/-- C1 counterexample: on the concrete played engine, stop discards the
session but the playing flag is still true right after the call — stop never
writes it; only the onEnded callback does. -/
theorem stop_keeps_playing_cex :
    play engIdle = some engPlaying ∧
    ((stop engPlaying).getD engIdle).playing = true ∧
    ((stop engPlaying).getD engIdle).playbackCtx = some [] :=
  ⟨rfl, rfl, rfl⟩

/-- C1 (amended): from a playing state with a session, stop discards the
session (playbackCtx becomes the empty array, retaining no gain or source
handles) but leaves playing true; playing becomes false once the host
delivers the ended notification of the stopped monitored source to onEnded,
after which the session is still discarded. -/
theorem stop_discards_session (e : Engine) (hp : e.playing = true)
    (hctx : e.playbackCtx.isSome = true) :
    ∃ e', stop e = some e' ∧ e'.playbackCtx = some [] ∧ e'.playing = true ∧
      (onEnded e').playing = false ∧ (onEnded e').playbackCtx = some [] := by
  obtain ⟨ctx, hc⟩ := Option.isSome_iff_exists.mp hctx
  unfold stop
  rw [if_neg (by simp [hp]), hc]
  exact ⟨_, rfl, rfl, hp, rfl, rfl⟩

/-- C1 witness: the amended statement, instantiated at the concrete played
engine. -/
theorem stop_discards_session_w :
    ∃ e', stop engPlaying = some e' ∧ e'.playbackCtx = some [] ∧ e'.playing = true ∧
      (onEnded e').playing = false ∧ (onEnded e').playbackCtx = some [] :=
  stop_discards_session engPlaying rfl rfl

/-- C4 counterexample: while playing a two-track session, selecting index 5
dereferences the undefined slot playbackCtx[5] and throws before the
trackChanged emission is reached — no event is emitted and the call fails. -/
theorem setCurrentTrack_crash_cex :
    setCurrentTrack engPlaying 5 = none ∧ engPlaying.playing = true ∧
      engPlaying.tracks.length = 2 :=
  ⟨rfl, rfl, rfl⟩

/-- C4 (amended): setCurrentTrack n updates the current track to n and emits
exactly one trackChanged n, provided the call does not throw, that is: not
playing, or no session yet, or n equal to the previous index, or both the
previous index and n within the session bounds. -/
theorem setCurrentTrack_emits (e : Engine) (n : Nat)
    (hsafe : e.playing = false ∨ e.playbackCtx = none ∨ n = e.currentTrack ∨
      (∃ ctx, e.playbackCtx = some ctx ∧ e.currentTrack < ctx.length ∧ n < ctx.length)) :
    ∃ e', setCurrentTrack e n = some (e', [Event.trackChanged n]) ∧
      e'.currentTrack = n := by
  rcases hsafe with h | h | h | ⟨ctx, hc, ho, hnn⟩
  · exact ⟨_, setCurrentTrack_eq_simple (by simp [h]), rfl⟩
  · exact ⟨_, setCurrentTrack_eq_simple (by simp [h]), rfl⟩
  · exact ⟨_, setCurrentTrack_eq_simple (by simp [h]), rfl⟩
  · by_cases hne : n = e.currentTrack
    · exact ⟨_, setCurrentTrack_eq_simple (by simp [hne]), rfl⟩
    · by_cases hp : e.playing = true
      · exact ⟨_, setCurrentTrack_eq_playing hp hc hne ho hnn, rfl⟩
      · have hpf : e.playing = false := by simpa using hp
        exact ⟨_, setCurrentTrack_eq_simple (by simp [hpf]), rfl⟩

/-- C4 witness: selecting track 1 on the concrete idle engine updates the
index and emits the single trackChanged 1. -/
theorem setCurrentTrack_emits_w :
    ∃ e', setCurrentTrack engIdle 1 = some (e', [Event.trackChanged 1]) ∧
      e'.currentTrack = 1 :=
  setCurrentTrack_emits engIdle 1 (Or.inl rfl)

/-- C5: from an idle state with the current track in range and every track's
buffer decoded, play succeeds, sets playing, and builds exactly one session
entry per track: gain 1.0 at the current track and 0.0 elsewhere, each gain
wired to the destination, each source bound to that track's decoded buffer,
connected to its gain and started at time zero. -/
theorem play_builds_session (e : Engine) (hnp : e.playing = false)
    (hcur : e.currentTrack < e.tracks.length)
    (hbuf : ∀ i, i < e.tracks.length → (e.buffers.getD i none).isSome = true) :
    ∃ e' ctx, play e = some e' ∧ e'.playing = true ∧ e'.playbackCtx = some ctx ∧
      ctx.length = e.tracks.length ∧
      ∀ i, (hi : i < ctx.length) →
        (ctx.get ⟨i, hi⟩).gainValue = (if i = e.currentTrack then 1 else 0) ∧
        (ctx.get ⟨i, hi⟩).gainToDestination = true ∧
        (ctx.get ⟨i, hi⟩).sourceBuffer = e.buffers.getD i none ∧
        ((ctx.get ⟨i, hi⟩).sourceBuffer).isSome = true ∧
        (ctx.get ⟨i, hi⟩).sourceToGain = true ∧
        (ctx.get ⟨i, hi⟩).startTime = some 0 := by
  obtain ⟨ctx, hplay, hlen, hget⟩ :=
    play_eq e hnp (Nat.lt_of_le_of_lt (Nat.zero_le _) hcur)
  refine ⟨_, ctx, hplay, rfl, rfl, hlen, ?_⟩
  intro i hi
  rw [hget i hi]
  have hbi : (e.buffers.getD i none).isSome = true := hbuf i (by rw [← hlen]; exact hi)
  exact ⟨rfl, rfl, rfl, hbi, rfl, rfl⟩

/-- C5 witness: the session built on the concrete loaded two-track engine. -/
theorem play_builds_session_w :
    ∃ e' ctx, play engIdle = some e' ∧ e'.playing = true ∧ e'.playbackCtx = some ctx ∧
      ctx.length = engIdle.tracks.length ∧
      ∀ i, (hi : i < ctx.length) →
        (ctx.get ⟨i, hi⟩).gainValue = (if i = engIdle.currentTrack then 1 else 0) ∧
        (ctx.get ⟨i, hi⟩).gainToDestination = true ∧
        (ctx.get ⟨i, hi⟩).sourceBuffer = engIdle.buffers.getD i none ∧
        ((ctx.get ⟨i, hi⟩).sourceBuffer).isSome = true ∧
        (ctx.get ⟨i, hi⟩).sourceToGain = true ∧
        (ctx.get ⟨i, hi⟩).startTime = some 0 :=
  play_builds_session engIdle rfl (by decide) (by decide)

/-- C6: play on an already-playing engine is a no-op returning the state
unchanged in every field, so a second play after any successful play returns
its argument and two consecutive calls equal one. -/
theorem play_idempotent :
    (∀ e, e.playing = true → play e = some e) ∧
    (∀ e e', play e = some e' → play e' = some e') := by
  have h1 : ∀ e : Engine, e.playing = true → play e = some e := by
    intro e hp
    unfold play
    rw [if_pos hp]
  refine ⟨h1, ?_⟩
  intro e e' hp
  have hp' : e'.playing = true := by
    unfold play at hp
    by_cases h : e.playing = true
    · rw [if_pos h] at hp
      cases hp
      exact h
    · rw [if_neg h] at hp
      cases hm : (playCtx e)[0]? with
      | none => rw [hm] at hp; cases hp
      | some entry0 => rw [hm] at hp; cases hp; rfl
  exact h1 e' hp'

/-- C6 witness: play applied to the concrete playing engine returns it
unchanged. -/
theorem play_idempotent_w : play engPlaying = some engPlaying :=
  play_idempotent.1 engPlaying rfl

/-- C8: onEnded clears the playing flag and changes nothing else: the session
handles, the current track, the buffer table and the track list are exactly
those of the input state, so no source is stopped on this path. -/
theorem onEnded_frame (e : Engine) :
    (onEnded e).playing = false ∧ (onEnded e).playbackCtx = e.playbackCtx ∧
      (onEnded e).currentTrack = e.currentTrack ∧ (onEnded e).buffers = e.buffers ∧
      (onEnded e).tracks = e.tracks :=
  ⟨rfl, rfl, rfl, rfl, rfl⟩

/-- C9: a fresh successful play registers the ended handler exactly on the
session entry of track 0 and on no other entry, whatever the current track. -/
theorem onended_only_track_zero (e : Engine) (hnp : e.playing = false)
    (hne : 0 < e.tracks.length) :
    ∃ e' ctx, play e = some e' ∧ e'.playbackCtx = some ctx ∧
      ∀ i, (hi : i < ctx.length) → ((ctx.get ⟨i, hi⟩).onendedSet = true ↔ i = 0) := by
  obtain ⟨ctx, hplay, hlen, hget⟩ := play_eq e hnp hne
  refine ⟨_, ctx, hplay, rfl, ?_⟩
  intro i hi
  rw [hget i hi]
  simp

/-- C9 witness: on the concrete engine, the handler sits on entry 0 only. -/
theorem onended_only_track_zero_w :
    ∃ e' ctx, play engIdle = some e' ∧ e'.playbackCtx = some ctx ∧
      ∀ i, (hi : i < ctx.length) → ((ctx.get ⟨i, hi⟩).onendedSet = true ↔ i = 0) :=
  onended_only_track_zero engIdle rfl (by decide)

/-- C7 counterexample: handing setCurrentTrack an out-of-range index while
idle is accepted (the gain block is skipped), so the one-call-deep reachable
state carries currentTrack = 5 on a one-track engine. -/
theorem currentTrack_escape_cex :
    ReachableAny [trackB]
        ((setCurrentTrack (mkEngine [trackB]) 5).getD (mkEngine [trackB], [])).fst ∧
      ((setCurrentTrack (mkEngine [trackB]) 5).getD (mkEngine [trackB], [])).fst.currentTrack = 5 ∧
      [trackB].length = 1 := by
  refine ⟨?_, rfl, rfl⟩
  have h : setCurrentTrack (mkEngine [trackB]) 5 =
      some (((setCurrentTrack (mkEngine [trackB]) 5).getD (mkEngine [trackB], [])).fst,
        ((setCurrentTrack (mkEngine [trackB]) 5).getD (mkEngine [trackB], [])).snd) := rfl
  exact ReachableAny.doSelect 5 ReachableAny.init h

/-- C7 (amended): when the track list is nonempty and every setCurrentTrack
call uses an index below the track count, every reachable state keeps
currentTrack in range; and currentTrack is left unchanged by play, stop,
onEnded and the load path, so it persists across play and stop cycles. -/
theorem currentTrack_invariant :
    (∀ t e, t ≠ [] → Reachable t e → e.currentTrack < t.length) ∧
    (∀ e e', play e = some e' → e'.currentTrack = e.currentTrack) ∧
    (∀ e e', stop e = some e' → e'.currentTrack = e.currentTrack) ∧
    (∀ e, (onEnded e).currentTrack = e.currentTrack) ∧
    (∀ e i b, ((trackDecodedCallback e i b).fst).currentTrack = e.currentTrack) := by
  refine ⟨?_, fun e e' h => (play_frame h).2.1, fun e e' h => (stop_frame h).2.1,
    fun e => rfl, fun e i b => rfl⟩
  intro t e ht hr
  induction hr with
  | init => simpa [mkEngine] using List.length_pos.mpr ht
  | doPlay hr hp ih => rw [(play_frame hp).2.1]; exact ih
  | doStop hr hs ih => rw [(stop_frame hs).2.1]; exact ih
  | doEnded hr ih => exact ih
  | doSelect n hr hn hsel ih => rw [(setCurrentTrack_frame hsel).2.2.2.1]; exact hn
  | doLoad i b hr ih => exact ih

/-- C7 witness: the initial state of the one-track engine, reachable with no
steps, has currentTrack in range. -/
theorem currentTrack_invariant_w : (mkEngine [trackB]).currentTrack < [trackB].length :=
  currentTrack_invariant.1 [trackB] (mkEngine [trackB]) (by simp) Reachable.init

/-- The XObject event mixin state: this.events, a JavaScript object mapping
an event name to its array of registered listeners, as an insertion-ordered
association list; listener callbacks are opaque Nat ids. -/
structure XObj where
  events : List (String × List Nat)
deriving Repr, DecidableEq

/-- this.events[k] = v on a JavaScript object: overwrite in place when the key
exists, append the new key otherwise. -/
def setAssoc : List (String × List Nat) → String → List Nat → List (String × List Nat)
  | [], k, v => [(k, v)]
  | (k1, v1) :: rest, k, v =>
    if k1 = k then (k, v) :: rest else (k1, v1) :: setAssoc rest k v

/-- XObject.prototype.declareEvent: installs an empty listener list. -/
def declareEvent (x : XObj) (evt : String) : XObj :=
  { events := setAssoc x.events evt [] }

/-- XObject.prototype.addEventListener: this.events[evt].push(callback).
When evt was never declared the lookup yields undefined and the push throws,
modelled as none. -/
def addEventListener (x : XObj) (evt : String) (cb : Nat) : Option XObj :=
  match x.events.lookup evt with
  | none => none
  | some cbs => some { events := setAssoc x.events evt (cbs ++ [cb]) }

/-- XObject.prototype.emitEvent: iterates this.events[evt] by index and calls
each listener once, in order; the returned trace lists the invoked callback
ids. When evt was never declared, reading .length of undefined throws,
modelled as none. -/
def emitEvent (x : XObj) (evt : String) : Option (List Nat) :=
  match x.events.lookup evt with
  | none => none
  | some cbs => some ((List.range cbs.length).map (fun i => cbs.getD i 0))

theorem lookup_setAssoc_self (m : List (String × List Nat)) (k : String) (v : List Nat) :
    (setAssoc m k v).lookup k = some v := by
  induction m with
  | nil => simp [setAssoc, List.lookup]
  | cons p t ih =>
    obtain ⟨k1, v1⟩ := p
    by_cases hk : k1 = k
    · rw [setAssoc, if_pos hk]
      simp [List.lookup]
    · rw [setAssoc, if_neg hk]
      have hne : (k == k1) = false := by
        simp only [beq_eq_false_iff_ne, ne_eq]
        exact fun h => hk h.symm
      rw [List.lookup, hne]
      exact ih

/-- Indexing a list at 0, 1, ..., length - 1 reproduces the list. -/
theorem range_map_getD (l : List Nat) (d : Nat) :
    (List.range l.length).map (fun i => l.getD i d) = l := by
  induction l with
  | nil => simp
  | cons a t ih =>
    rw [List.length_cons, List.range_succ_eq_map, List.map_cons, List.map_map]
    have hcomp : ((fun i => (a :: t).getD i d) ∘ Nat.succ) = (fun i => t.getD i d) := by
      funext i
      simp [Function.comp]
    rw [hcomp, ih]
    rfl

/-- C10: declareEvent installs the (empty) listener list for the event;
addEventListener and emitEvent succeed exactly when the event's listener list
exists; addEventListener appends the callback at the end of the event's list;
emitEvent invokes every registered callback exactly once, in registration
order. -/
theorem xobject_event_contract :
    (∀ x evt, ((declareEvent x evt).events.lookup evt) = some []) ∧
    (∀ x evt cb, (addEventListener x evt cb).isSome = (x.events.lookup evt).isSome) ∧
    (∀ x evt, (emitEvent x evt).isSome = (x.events.lookup evt).isSome) ∧
    (∀ x evt cb cbs, x.events.lookup evt = some cbs →
      ∃ x', addEventListener x evt cb = some x' ∧
        x'.events.lookup evt = some (cbs ++ [cb])) ∧
    (∀ x evt cbs, x.events.lookup evt = some cbs → emitEvent x evt = some cbs) := by
  refine ⟨?_, ?_, ?_, ?_, ?_⟩
  · intro x evt
    exact lookup_setAssoc_self _ _ _
  · intro x evt cb
    unfold addEventListener
    cases h : x.events.lookup evt <;> rfl
  · intro x evt
    unfold emitEvent
    cases h : x.events.lookup evt <;> rfl
  · intro x evt cb cbs h
    unfold addEventListener
    rw [h]
    exact ⟨_, rfl, lookup_setAssoc_self _ _ _⟩
  · intro x evt cbs h
    unfold emitEvent
    rw [h]
    show some ((List.range cbs.length).map (fun i => cbs.getD i 0)) = some cbs
    rw [range_map_getD]

/-- The concrete XObject state right after the PlayerEngine constructor has
declared its two events. -/
def xW : XObj := declareEvent (declareEvent { events := [] } "trackLoaded") "trackChanged"

/-- C10 witness: emitting the declared trackChanged event on the concrete
object succeeds and invokes the (empty) listener list in order. -/
theorem xobject_event_contract_w : emitEvent xW "trackChanged" = some [] :=
  xobject_event_contract.2.2.2.2 xW "trackChanged" [] (by rfl)

end ReampPlayer
